import Mathlib

/-!
# Triangular matrix-vector multiply: the `testblas` table for `Ztrmv`

A shallow embedding of `blas/testblas/ztrmv.go`: the literal test table of
`ZtrmvTest`, the loop nest that drives the implementation under test, and the
mathematical definition of the operation the table is checked against.

Complex values are modelled exactly: a `complex128` is either NaN or a complex
number with integer real and imaginary parts (every literal of the table is of
that form, and on such values the arithmetic is exact).
-/

namespace Testblas

/-! ## Scalars -/

/-- A `complex128` of the table: the NaN sentinel `cmplx.NaN()` or an exact
complex number `re + im*i` with integer parts. -/
inductive C128 where
  | nan : C128
  | val (re im : Int) : C128
deriving DecidableEq, Repr

namespace C128

/-- The test `cmplx.IsNaN`. -/
def isNaN : C128 → Bool
  | nan => true
  | val _ _ => false

/-- Complex addition; NaN propagates. -/
def add : C128 → C128 → C128
  | val a b, val c d => val (a + c) (b + d)
  | _, _ => nan

/-- Complex multiplication; NaN propagates. -/
def mul : C128 → C128 → C128
  | val a b, val c d => val (a * c - b * d) (a * d + b * c)
  | _, _ => nan

/-- Complex conjugation `cmplx.Conj`; NaN propagates. -/
def conj : C128 → C128
  | val a b => val a (-b)
  | nan => nan

instance : Zero C128 := ⟨val 0 0⟩
instance : One C128 := ⟨val 1 0⟩
instance : Add C128 := ⟨add⟩
instance : Mul C128 := ⟨mul⟩
instance : Star C128 := ⟨conj⟩
instance : Inhabited C128 := ⟨nan⟩

end C128

/-- The literal `re + im*i`. -/
def c (re im : Int) : C128 := C128.val re im

/-- The value `nan := cmplx.NaN()` of `ZtrmvTest`. -/
def nan : C128 := C128.nan

/-! ## The configuration enumerations of package `blas` -/

/-- The type `blas.Uplo`. -/
inductive Uplo where
  | Upper
  | Lower
deriving DecidableEq, Repr

/-- The type `blas.Transpose`. -/
inductive Transpose where
  | NoTrans
  | Trans
  | ConjTrans
deriving DecidableEq, Repr

/-- The type `blas.Diag`. -/
inductive Diag where
  | NonUnit
  | Unit
deriving DecidableEq, Repr

/-! ## The literal test table of `ZtrmvTest` -/

/-- The anonymous struct type of the table; a field left out of a literal is
the nil slice. -/
structure TestCase where
  uplo : Uplo
  a : List C128 := []
  x : List C128 := []
  want : List C128 := []
  wantNeg : List C128 := []
  wantTrans : List C128 := []
  wantTransNeg : List C128 := []
  wantConjTrans : List C128 := []
  wantConjTransNeg : List C128 := []
  wantUnit : List C128 := []
  wantUnitNeg : List C128 := []
  wantUnitTrans : List C128 := []
  wantUnitTransNeg : List C128 := []
  wantUnitConjTrans : List C128 := []
  wantUnitConjTransNeg : List C128 := []
deriving DecidableEq, Repr

/-- The third entry of the table, the only one with a non-empty vector. -/
def upperCase : TestCase where
  uplo := Uplo.Upper
  a := [
    c 6 (-8), c (-10) 10, c (-6) (-3), c (-1) (-8),
    nan, c 7 8, c (-7) 9, c 3 6,
    nan, nan, c 6 (-4), c (-2) (-5),
    nan, nan, nan, c 4 (-8)]
  x := [c 10 (-5), c (-2) 2, c 8 (-1), c (-7) 9]
  want := [c 48 (-121), c (-152) 62, c 103 (-21), c 44 92]
  wantNeg := [c 0 (-100), c (-49) (-20), c 120 70, c (-72) 119]
  wantTrans := [c 20 (-110), c (-80) 148, c (-35) (-70), c (-45) (-27)]
  wantTransNeg := [c 123 (-2), c 18 66, c 44 (-103), c 30 110]
  wantConjTrans := [c 100 50, c (-148) (-20), c 39 90, c (-75) 125]
  wantConjTransNeg := [c 27 (-70), c (-70) (-136), c 208 (-91), c (-114) (-2)]
  wantUnit := [c 38 (-16), c (-124) 66, c 67 16, c (-7) 9]
  wantUnitNeg := [c 10 (-5), c (-47) (-38), c 64 12, c (-109) 18]
  wantUnitTrans := [c 10 (-5), c (-52) 152, c (-71) (-33), c (-96) (-110)]
  wantUnitTransNeg := [c 133 93, c 20 48, c (-12) (-161), c (-7) 9]
  wantUnitConjTrans := [c 10 (-5), c (-152) (-48), c (-5) 63, c 18 154]
  wantUnitConjTransNeg := [c (-43) (-135), c (-52) (-138), c 168 (-21), c (-7) 9]

/-- The table ranged over by `ZtrmvTest`. -/
def tests : List TestCase :=
  [{ uplo := Uplo.Upper }, { uplo := Uplo.Lower }, upperCase]

/-! ## The mathematical definition of the operation -/

section Definition

variable {R : Type} [Zero R] [One R] [Add R] [Mul R] [Star R] [Inhabited R]

/-- Element `k` of a buffer. -/
def at_ (buf : List R) (k : Nat) : R := buf.getD k default

/-- Whether the storage slot `(r, c)` lies in the configured triangle,
diagonal included. -/
def inTriangle (uplo : Uplo) (r c : Nat) : Bool :=
  match uplo with
  | Uplo.Upper => decide (r ≤ c)
  | Uplo.Lower => decide (c ≤ r)

/-- Whether column `j` belongs to the summation range of row `i`: for no
transform the slot `(i, j)` must lie in the triangle, for the two transposes
the slot `(j, i)`. -/
def inRow (uplo : Uplo) (trans : Transpose) (i j : Nat) : Bool :=
  match trans with
  | Transpose.NoTrans => inTriangle uplo i j
  | Transpose.Trans => inTriangle uplo j i
  | Transpose.ConjTrans => inTriangle uplo j i

/-- The columns summed over in row `i`, in increasing order. -/
def rowCols (uplo : Uplo) (trans : Transpose) (n i : Nat) : List Nat :=
  (List.range n).filter (fun j => inRow uplo trans i j)

/-- Entry `(i, j)` of the transformed operand: an implicit `1` on the diagonal
under the unit-diagonal convention (the slot is not read), otherwise the
stored `a_{ij}`, `a_{ji}` or `conj(a_{ji})` of the row-major buffer with
leading dimension `lda`. -/
def opEntry (trans : Transpose) (diag : Diag) (a : List R) (lda i j : Nat) : R :=
  if diag = Diag.Unit ∧ i = j then 1
  else match trans with
    | Transpose.NoTrans => at_ a (i * lda + j)
    | Transpose.Trans => at_ a (j * lda + i)
    | Transpose.ConjTrans => star (at_ a (j * lda + i))

/-- Row `i` of the product for a logical vector given by its accessor `xv`:
the sum of `opEntry i j * xv j` over the columns of the row. -/
def rowSum (uplo : Uplo) (trans : Transpose) (diag : Diag) (n : Nat) (a : List R)
    (lda : Nat) (xv : Nat → R) (i : Nat) : R :=
  ((rowCols uplo trans n i).map (fun j => opEntry trans diag a lda i j * xv j)).sum

/-- The definition `result_i` of the specification for a logical vector `x`
stored contiguously. -/
def specResult (uplo : Uplo) (trans : Transpose) (diag : Diag) (n : Nat) (a : List R)
    (lda : Nat) (x : List R) (i : Nat) : R :=
  rowSum uplo trans diag n a lda (at_ x) i

/-- The whole result vector of the definition. -/
def specVector (uplo : Uplo) (trans : Transpose) (diag : Diag) (n : Nat) (a : List R)
    (lda : Nat) (x : List R) : List R :=
  (List.range n).map (specResult uplo trans diag n a lda x)

/-- Physical offset of logical element `i` of an `n`-vector with stride
`incX`: a positive stride walks forward from the first element, a negative
stride stores the last logical element first; the magnitude is the step. -/
def physIndex (n : Nat) (incX : Int) (i : Nat) : Nat :=
  if 0 < incX then i * incX.natAbs else (n - 1 - i) * incX.natAbs

/-- The logical vector seen through stride `incX` in the physical buffer `x`. -/
def logical (n : Nat) (incX : Int) (x : List R) : Nat → R :=
  fun j => at_ x (physIndex n incX j)

end Definition

/-! ## The harness `ZtrmvTest` -/

/-- Modelled from the spec: the helper `makeZGeneral` of package `testblas`,
which is defined outside `ztrmv.go`. It lays an `m` by `n` row-major matrix out
in a general buffer of `m * ld` values with leading dimension `ld`; the
padding of each row is filled with the NaN sentinel. -/
def makeZGeneral (data : List C128) (m n ld : Nat) : List C128 :=
  (List.range m).flatMap (fun i =>
    (List.range ld).map (fun j => if j < n then at_ data (i * n + j) else nan))

/-- The loop `for i := 0; i < n; i++ { a[i*lda+i] = nan }`. -/
def poisonDiag (a : List C128) (n lda : Nat) : List C128 :=
  (List.range n).foldl (fun buf i => buf.set (i * lda + i) nan) a

/-- The twelve result fields of a table entry. -/
inductive WantField where
  | want
  | wantNeg
  | wantTrans
  | wantTransNeg
  | wantConjTrans
  | wantConjTransNeg
  | wantUnit
  | wantUnitNeg
  | wantUnitTrans
  | wantUnitTransNeg
  | wantUnitConjTrans
  | wantUnitConjTransNeg
deriving DecidableEq, Repr

/-- The two `switch` statements choosing the expected vector: the field passed
to `makeZVector`, or none when no case applies (`want` stays nil). -/
def selectWant (diag : Diag) (trans : Transpose) (incX : Int) : Option WantField :=
  if diag = Diag.NonUnit then
    if trans = Transpose.NoTrans ∧ 0 < incX then some WantField.want
    else if trans = Transpose.NoTrans ∧ incX < 0 then some WantField.wantNeg
    else if trans = Transpose.Trans ∧ 0 < incX then some WantField.wantTrans
    else if trans = Transpose.Trans ∧ incX < 0 then some WantField.wantTransNeg
    else if trans = Transpose.ConjTrans ∧ 0 < incX then some WantField.wantConjTrans
    else if trans = Transpose.ConjTrans ∧ incX < 0 then some WantField.wantConjTransNeg
    else none
  else
    if trans = Transpose.NoTrans ∧ 0 < incX then some WantField.wantUnit
    else if trans = Transpose.NoTrans ∧ incX < 0 then some WantField.wantUnitNeg
    else if trans = Transpose.Trans ∧ 0 < incX then some WantField.wantUnitTrans
    else if trans = Transpose.Trans ∧ incX < 0 then some WantField.wantUnitTransNeg
    else if trans = Transpose.ConjTrans ∧ 0 < incX then some WantField.wantUnitConjTrans
    else if trans = Transpose.ConjTrans ∧ incX < 0 then some WantField.wantUnitConjTransNeg
    else none

/-- One execution of the innermost loop body: the arguments of the call
`impl.Ztrmv(uplo, trans, diag, n, a, lda, x, incX)` (the vector is recorded by
its table entry `test.x`, of length `n`) and the field selected afterwards as
the expected result. -/
structure Call where
  tc : Nat
  uplo : Uplo
  trans : Transpose
  diag : Diag
  n : Nat
  a : List C128
  lda : Nat
  xData : List C128
  incX : Int
  wantField : Option WantField
deriving DecidableEq, Repr

/-- The innermost loop body for one combination of the loop variables. -/
def callOf (tc : Nat) (test : TestCase) (diag : Diag) (trans : Transpose) (incX : Int)
    (lda : Nat) : Call :=
  let n := test.x.length
  let a := makeZGeneral test.a n n lda
  let a := if diag = Diag.Unit then poisonDiag a n lda else a
  { tc := tc, uplo := test.uplo, trans := trans, diag := diag, n := n, a := a, lda := lda,
    xData := test.x, incX := incX, wantField := selectWant diag trans incX }

/-- The loop nest of `ZtrmvTest` over one table entry: every call it makes, in
order. An iteration with `trans != blas.NoTrans` is left by `continue` before
anything is built. -/
def callsOfCase (tc : Nat) (test : TestCase) : List Call :=
  [Diag.Unit, Diag.NonUnit].flatMap (fun diag =>
    [Transpose.NoTrans, Transpose.Trans, Transpose.ConjTrans].flatMap (fun trans =>
      if trans ≠ Transpose.NoTrans then []
      else
        ([-11, -2, -1, 1, 2, 7] : List Int).flatMap (fun incX =>
          [max 1 test.x.length, test.x.length + 11].map (fun lda =>
            callOf tc test diag trans incX lda))))

/-- Every call `ZtrmvTest` makes to the implementation, in order. -/
def harnessCalls : List Call :=
  tests.enum.flatMap (fun p => callsOfCase p.1 p.2)

/-! ## The kernel -/

section Kernel

variable {R : Type} [Zero R] [One R] [Add R] [Mul R] [Star R] [Inhabited R]

/-- The two caller-owned operands of a call, as the state the kernel runs on. -/
structure Operands (R : Type) where
  a : List R
  x : List R

/-- One row of the in-place update: row `i` is accumulated from the current
content of the vector and stored over logical element `i`. -/
def storeRow (uplo : Uplo) (trans : Transpose) (diag : Diag) (n lda : Nat) (incX : Int)
    (s : Operands R) (i : Nat) : Operands R :=
  { s with
    x := s.x.set (physIndex n incX i)
      (rowSum uplo trans diag n s.a lda (logical n incX s.x) i) }

/-- The in-place update run over the rows in the given order. -/
def inPlace (uplo : Uplo) (trans : Transpose) (diag : Diag) (n lda : Nat) (incX : Int)
    (order : List Nat) (s : Operands R) : Operands R :=
  order.foldl (storeRow uplo trans diag n lda incX) s

/-- Rows first to last. -/
def firstToLast (n : Nat) : List Nat := List.range n

/-- Rows last to first. -/
def lastToFirst (n : Nat) : List Nat := (List.range n).reverse

/-- A traversal order that never overwrites an element still needed: a row
whose range is `j ≥ i` is finished before any later row, so such rows go first
to last, and rows with range `j ≤ i` go last to first. -/
def rowOrder (uplo : Uplo) (trans : Transpose) (n : Nat) : List Nat :=
  if inRow uplo trans 0 1 then firstToLast n else lastToFirst n

/-- Modelled from the spec: the kernel behind the interface `Ztrmver`, whose
implementations are defined outside `ztrmv.go`. It overwrites `x` with the
product of the transformed triangular operand and the entry value of `x`, in
place, row by row in an order that keeps every element a row still needs. -/
def Ztrmv (uplo : Uplo) (trans : Transpose) (diag : Diag) (n : Nat) (a : List R) (lda : Nat)
    (x : List R) (incX : Int) : Operands R :=
  inPlace uplo trans diag n lda incX (rowOrder uplo trans n) { a := a, x := x }

end Kernel

/-- The definition applied to the logical vector of a negative stride and
written back to the physical positions: physical position `k` holds logical
element `n-1-k`, so the logical vector is `x'[j] = x[n-1-j]` and result
`n-1-k` is stored at position `k`. -/
def negStrideVector {R : Type} [Zero R] [One R] [Add R] [Mul R] [Star R] [Inhabited R]
    (uplo : Uplo) (trans : Transpose) (diag : Diag) (n : Nat) (a : List R) (lda : Nat)
    (x : List R) : List R :=
  (List.range n).map (fun k =>
    rowSum uplo trans diag n a lda (fun j => at_ x (n - 1 - j)) (n - 1 - k))

/-- The row of the definition for an upper triangle, no transform and a unit
diagonal, written out: `x_i` plus the sum of `a_{ij} * x_j` over `j > i`. -/
def unitUpperRow {R : Type} [Zero R] [One R] [Add R] [Mul R] [Star R] [Inhabited R]
    (n : Nat) (a : List R) (lda : Nat) (x : List R) (i : Nat) : R :=
  at_ x i + (((List.range n).filter (fun j => decide (i < j))).map
    (fun j => at_ a (i * lda + j) * at_ x j)).sum

/-- Whether the definition reads the storage slot `(i, j)` of the operand for
no transform: the slot lies in the triangle and is not a diagonal slot under
the unit-diagonal convention. -/
def readsSlot (uplo : Uplo) (diag : Diag) (i j : Nat) : Bool :=
  inTriangle uplo i j && !(decide (diag = Diag.Unit) && decide (i = j))

/-- The eight result fields for the two transposes. -/
def transFields : List WantField :=
  [WantField.wantTrans, WantField.wantTransNeg, WantField.wantConjTrans,
   WantField.wantConjTransNeg, WantField.wantUnitTrans, WantField.wantUnitTransNeg,
   WantField.wantUnitConjTrans, WantField.wantUnitConjTransNeg]

/-! ## Supporting lemmas -/

theorem at_set_self {R : Type} [Inhabited R] (l : List R) (k : Nat) (v : R) (h : k < l.length) :
    at_ (l.set k v) k = v := by
  simp [at_, h]

theorem at_set_ne {R : Type} [Inhabited R] (l : List R) (k m : Nat) (v : R) (h : k ≠ m) :
    at_ (l.set k v) m = at_ l m := by
  simp [at_, h]

theorem at_eq_getElem {R : Type} [Inhabited R] (l : List R) (k : Nat) (h : k < l.length) : at_ l k = l[k] := by
  simp [at_, h]

theorem list_eq_of_at {R : Type} [Inhabited R] (l₁ l₂ : List R) (hlen : l₁.length = l₂.length)
    (h : ∀ k, k < l₁.length → at_ l₁ k = at_ l₂ k) : l₁ = l₂ := by
  apply List.ext_getElem hlen
  intro k h₁ h₂
  have := h k h₁
  rwa [at_eq_getElem l₁ k h₁, at_eq_getElem l₂ k h₂] at this

theorem mem_rowCols (uplo : Uplo) (trans : Transpose) (n i j : Nat) :
    j ∈ rowCols uplo trans n i ↔ j < n ∧ inRow uplo trans i j = true := by
  simp [rowCols, List.mem_filter]

/-- A row of the definition depends on the vector only through the elements
of its column range. -/
theorem rowSum_congr_x {R : Type} [Zero R] [One R] [Add R] [Mul R] [Star R] [Inhabited R]
    (uplo : Uplo) (trans : Transpose) (diag : Diag) (n : Nat) (a : List R)
    (lda : Nat) (xv xw : Nat → R) (i : Nat)
    (h : ∀ j, j < n → inRow uplo trans i j = true → xv j = xw j) :
    rowSum uplo trans diag n a lda xv i = rowSum uplo trans diag n a lda xw i := by
  unfold rowSum
  congr 1
  apply List.map_congr_left
  intro j hj
  rw [mem_rowCols] at hj
  rw [h j hj.1 hj.2]

/-- A row of the definition depends on the operand only through the entries
of its column range. -/
theorem rowSum_congr_a {R : Type} [Zero R] [One R] [Add R] [Mul R] [Star R] [Inhabited R]
    (uplo : Uplo) (trans : Transpose) (diag : Diag) (n : Nat)
    (a b : List R) (lda : Nat) (xv : Nat → R) (i : Nat)
    (h : ∀ j, j < n → inRow uplo trans i j = true →
      opEntry trans diag a lda i j = opEntry trans diag b lda i j) :
    rowSum uplo trans diag n a lda xv i = rowSum uplo trans diag n b lda xv i := by
  unfold rowSum
  congr 1
  apply List.map_congr_left
  intro j hj
  rw [mem_rowCols] at hj
  rw [h j hj.1 hj.2]

theorem physIndex_inj (n : Nat) (incX : Int) (i j : Nat) (h0 : incX ≠ 0) (hi : i < n)
    (hj : j < n) (h : physIndex n incX i = physIndex n incX j) : i = j := by
  have hpos : 0 < incX.natAbs := Int.natAbs_pos.mpr h0
  unfold physIndex at h
  split at h
  · exact Nat.eq_of_mul_eq_mul_right hpos h
  · have := Nat.eq_of_mul_eq_mul_right hpos h
    omega

theorem physIndex_one (n i : Nat) : physIndex n 1 i = i := by
  simp [physIndex]

theorem inPlace_cons {R : Type} [Zero R] [One R] [Add R] [Mul R] [Star R] [Inhabited R]
    (uplo : Uplo) (trans : Transpose) (diag : Diag) (n lda : Nat) (incX : Int)
    (i : Nat) (rest : List Nat) (s : Operands R) :
    inPlace uplo trans diag n lda incX (i :: rest) s
      = inPlace uplo trans diag n lda incX rest (storeRow uplo trans diag n lda incX s i) :=
  rfl

/-- The in-place update never writes the matrix operand. -/
theorem inPlace_a {R : Type} [Zero R] [One R] [Add R] [Mul R] [Star R] [Inhabited R]
    (uplo : Uplo) (trans : Transpose) (diag : Diag) (n lda : Nat) (incX : Int)
    (order : List Nat) (s : Operands R) :
    (inPlace uplo trans diag n lda incX order s).a = s.a := by
  induction order generalizing s with
  | nil => rfl
  | cons i rest ih => rw [inPlace_cons, ih]; rfl

theorem storeRow_x_length {R : Type} [Zero R] [One R] [Add R] [Mul R] [Star R] [Inhabited R]
    (uplo : Uplo) (trans : Transpose) (diag : Diag) (n lda : Nat) (incX : Int)
    (s : Operands R) (i : Nat) :
    (storeRow uplo trans diag n lda incX s i).x.length = s.x.length := by
  simp [storeRow]

/-- The loop invariant of the in-place update. When the rows are visited in an
order in which no row is a column of a row visited later, the update leaves
every position outside the visited rows alone, and every visited row holds
the row of the definition for the entry value of the vector. -/
theorem inPlace_spec {R : Type} [Zero R] [One R] [Add R] [Mul R] [Star R] [Inhabited R]
    (uplo : Uplo) (trans : Transpose) (diag : Diag) (n lda : Nat) (incX : Int)
    (h0 : incX ≠ 0) (order : List Nat) :
    ∀ s : Operands R, order.Nodup → (∀ i ∈ order, i < n) →
      order.Pairwise (fun i m => inRow uplo trans m i = false) →
      (∀ i, i < n → physIndex n incX i < s.x.length) →
      (inPlace uplo trans diag n lda incX order s).x.length = s.x.length ∧
      (∀ k, (∀ i ∈ order, physIndex n incX i ≠ k) →
        at_ (inPlace uplo trans diag n lda incX order s).x k = at_ s.x k) ∧
      (∀ i ∈ order, at_ (inPlace uplo trans diag n lda incX order s).x (physIndex n incX i)
        = rowSum uplo trans diag n s.a lda (logical n incX s.x) i) := by
  induction order with
  | nil =>
    intro s _ _ _ _
    exact ⟨rfl, fun _ _ => rfl, fun i hi => absurd hi (List.not_mem_nil i)⟩
  | cons i rest ih =>
    intro s hnd hlt hpw hlen
    have hnd' := List.nodup_cons.mp hnd
    have hpw' := List.pairwise_cons.mp hpw
    have hi : i < n := hlt i (List.mem_cons_self i rest)
    have hlen1 : (storeRow uplo trans diag n lda incX s i).x.length = s.x.length :=
      storeRow_x_length uplo trans diag n lda incX s i
    obtain ⟨ihlen, ihout, ihrow⟩ := ih (storeRow uplo trans diag n lda incX s i) hnd'.2
      (fun m hm => hlt m (List.mem_cons_of_mem i hm)) hpw'.2
      (fun m hm => by rw [hlen1]; exact hlen m hm)
    rw [inPlace_cons]
    refine ⟨by rw [ihlen, hlen1], ?_, ?_⟩
    · intro k hk
      rw [ihout k (fun m hm => hk m (List.mem_cons_of_mem i hm))]
      exact at_set_ne s.x _ k _ (hk i (List.mem_cons_self i rest))
    · intro m hm
      rcases List.mem_cons.mp hm with rfl | hm
      · rw [ihout]
        · exact at_set_self s.x _ _ (hlen m hi)
        · intro q hq hEq
          have : q = m := physIndex_inj n incX q m h0
            (hlt q (List.mem_cons_of_mem m hq)) hi hEq
          exact hnd'.1 (this ▸ hq)
      · rw [ihrow m hm]
        apply rowSum_congr_x
        intro j hj hrow
        have hji : i ≠ j := by
          intro h
          have := hpw'.1 m hm
          rw [h, hrow] at this
          exact Bool.noConfusion this
        exact at_set_ne s.x _ _ _
          (fun hEq => hji (physIndex_inj n incX i j h0 hi hj hEq))

theorem rowOrder_nodup (uplo : Uplo) (trans : Transpose) (n : Nat) :
    (rowOrder uplo trans n).Nodup := by
  unfold rowOrder firstToLast lastToFirst
  split
  · exact List.nodup_range n
  · exact List.nodup_reverse.mpr (List.nodup_range n)

theorem mem_rowOrder (uplo : Uplo) (trans : Transpose) (n i : Nat) :
    i ∈ rowOrder uplo trans n ↔ i < n := by
  unfold rowOrder firstToLast lastToFirst
  split <;> simp

/-- First to last is a safe order for rows whose column range is `j ≥ i`. -/
theorem firstToLast_safe (uplo : Uplo) (trans : Transpose) (n : Nat)
    (h : ∀ i m, i < m → inRow uplo trans m i = false) :
    (firstToLast n).Pairwise (fun i m => inRow uplo trans m i = false) :=
  (List.pairwise_lt_range n).imp (fun {i m} him => h i m him)

/-- Last to first is a safe order for rows whose column range is `j ≤ i`. -/
theorem lastToFirst_safe (uplo : Uplo) (trans : Transpose) (n : Nat)
    (h : ∀ i m, m < i → inRow uplo trans m i = false) :
    (lastToFirst n).Pairwise (fun i m => inRow uplo trans m i = false) := by
  unfold lastToFirst
  rw [List.pairwise_reverse]
  exact (List.pairwise_lt_range n).imp (fun {i m} him => h m i him)

theorem rowOrder_safe (uplo : Uplo) (trans : Transpose) (n : Nat) :
    (rowOrder uplo trans n).Pairwise (fun i m => inRow uplo trans m i = false) := by
  cases uplo <;> cases trans <;>
    first
    | exact firstToLast_safe _ _ n
        (fun i m him => by simp [inRow, inTriangle]; omega)
    | exact lastToFirst_safe _ _ n
        (fun i m him => by simp [inRow, inTriangle]; omega)

/-- The kernel computes the definition: for each of the twelve variants and
every non-zero stride, logical element `i` of the vector holds, after the
call, row `i` of the definition for the logical vector on entry. -/
theorem Ztrmv_x_spec {R : Type} [Zero R] [One R] [Add R] [Mul R] [Star R] [Inhabited R]
    (uplo : Uplo) (trans : Transpose) (diag : Diag) (n : Nat) (a : List R) (lda : Nat)
    (x : List R) (incX : Int) (h0 : incX ≠ 0)
    (hlen : ∀ i, i < n → physIndex n incX i < x.length) (i : Nat) (hi : i < n) :
    at_ (Ztrmv uplo trans diag n a lda x incX).x (physIndex n incX i)
      = rowSum uplo trans diag n a lda (logical n incX x) i :=
  (inPlace_spec uplo trans diag n lda incX h0 (rowOrder uplo trans n) { a := a, x := x }
    (rowOrder_nodup uplo trans n) (fun m hm => (mem_rowOrder uplo trans n m).mp hm)
    (rowOrder_safe uplo trans n) hlen).2.2 i ((mem_rowOrder uplo trans n i).mpr hi)

/-- With a contiguous vector of length `n`, an in-place update over all rows
in a safe order produces exactly the vector of the definition. -/
theorem inPlace_eq_specVector {R : Type} [Zero R] [One R] [Add R] [Mul R] [Star R]
    [Inhabited R] (uplo : Uplo) (trans : Transpose) (diag : Diag) (n : Nat) (a : List R)
    (lda : Nat) (x : List R) (order : List Nat) (hx : x.length = n) (hnd : order.Nodup)
    (hmem : ∀ i, i ∈ order ↔ i < n)
    (hsafe : order.Pairwise (fun i m => inRow uplo trans m i = false)) :
    (inPlace uplo trans diag n lda 1 order { a := a, x := x }).x
      = specVector uplo trans diag n a lda x := by
  obtain ⟨hlen, _, hrow⟩ := inPlace_spec uplo trans diag n lda 1 (by decide) order
    { a := a, x := x } hnd (fun i hi => (hmem i).mp hi) hsafe
    (fun i hi => by rw [physIndex_one]; exact hx ▸ hi)
  apply list_eq_of_at
  · rw [hlen]; simp [specVector, hx]
  · intro k hk
    rw [hlen] at hk
    have hk' : k < n := hx ▸ hk
    have := hrow k ((hmem k).mpr hk')
    rw [physIndex_one] at this
    rw [this, at_eq_getElem _ k (by simp [specVector, hk'])]
    simp only [specVector, List.getElem_map, List.getElem_range, specResult]
    apply rowSum_congr_x
    intro j _ _
    simp [logical, physIndex_one]

/-! ## The expected vectors of the table -/

/-- Claim C1. For the non-empty entry of the table (upper triangle, `n = 4`),
with no transform, a non-unit diagonal and stride 1, the definition
`result_i = sum over j ≥ i of a_ij * x_j` evaluates exactly to the literal
field `want` at every index. -/
theorem want_eq_definition :
    upperCase.uplo = Uplo.Upper ∧ upperCase.x.length = 4 ∧
    upperCase.want = [c 48 (-121), c (-152) 62, c 103 (-21), c 44 92] ∧
    specVector upperCase.uplo Transpose.NoTrans Diag.NonUnit upperCase.x.length upperCase.a 4
      upperCase.x = upperCase.want := by
  decide

/-- Claim C2. For the same operand and vector with a unit diagonal, the
definition with an implicit 1 on the diagonal, which is
`x_i + sum over j > i of a_ij * x_j`, equals the literal field `wantUnit` at
every index, whatever the diagonal slots of the operand hold: the statement is
for every buffer that agrees with the table off the diagonal. -/
theorem wantUnit_eq_definition (a : List C128)
    (hoff : ∀ i, i < 4 → ∀ j, j < 4 → i ≠ j →
      at_ a (i * 4 + j) = at_ upperCase.a (i * 4 + j)) :
    specVector Uplo.Upper Transpose.NoTrans Diag.Unit 4 a 4 upperCase.x = upperCase.wantUnit ∧
    (List.range 4).map (unitUpperRow 4 a 4 upperCase.x) = upperCase.wantUnit := by
  have h₁ : specVector Uplo.Upper Transpose.NoTrans Diag.Unit 4 a 4 upperCase.x
      = specVector Uplo.Upper Transpose.NoTrans Diag.Unit 4 upperCase.a 4 upperCase.x := by
    unfold specVector
    apply List.map_congr_left
    intro i hi
    have hi' : i < 4 := List.mem_range.mp hi
    unfold specResult
    apply rowSum_congr_a
    intro j hj _
    by_cases hij : i = j
    · simp [opEntry, hij]
    · simp [opEntry, hij, hoff i hi' j hj hij]
  have h₂ : (List.range 4).map (unitUpperRow 4 a 4 upperCase.x)
      = (List.range 4).map (unitUpperRow 4 upperCase.a 4 upperCase.x) := by
    apply List.map_congr_left
    intro i hi
    have hi' : i < 4 := List.mem_range.mp hi
    unfold unitUpperRow
    congr 2
    apply List.map_congr_left
    intro j hj
    rw [List.mem_filter, List.mem_range] at hj
    have hij : i ≠ j := by
      have := hj.2
      simp at this
      omega
    rw [hoff i hi' j hj.1 hij]
  rw [h₁, h₂]
  decide

/-- A buffer that agrees with the table off the diagonal: the operand the
harness hands over for a unit diagonal and `lda = 4`, its diagonal poisoned by
NaN. -/
theorem wantUnit_eq_definition_witness :
    specVector Uplo.Upper Transpose.NoTrans Diag.Unit 4 (poisonDiag upperCase.a 4 4) 4
      upperCase.x = upperCase.wantUnit ∧
    (List.range 4).map (unitUpperRow 4 (poisonDiag upperCase.a 4 4) 4 upperCase.x)
      = upperCase.wantUnit :=
  wantUnit_eq_definition (poisonDiag upperCase.a 4 4) (by decide)

/-- Claim C3. For a negative stride and no transform, the definition applied
to the logical vector `x'[j] = x[n-1-j]` and written back to the same physical
positions equals `wantNeg` for a non-unit diagonal and `wantUnitNeg` for a
unit diagonal: position `k` holds the sum over `j ≥ n-1-k` of
`a_{n-1-k, j} * x[n-1-j]`, with the diagonal entry taken as 1 in the unit
case. -/
theorem wantNeg_eq_definition :
    negStrideVector Uplo.Upper Transpose.NoTrans Diag.NonUnit 4 upperCase.a 4 upperCase.x
      = upperCase.wantNeg ∧
    negStrideVector Uplo.Upper Transpose.NoTrans Diag.Unit 4 upperCase.a 4 upperCase.x
      = upperCase.wantUnitNeg := by
  decide

/-- Claim C4, as stated, fails on the table: `wantNeg` is not `want` in
reverse storage order, and `wantUnitNeg` is not `wantUnit` in reverse storage
order; already position 0 differs from position `n-1` of the other field. -/
theorem wantNeg_ne_reverse_want :
    at_ upperCase.wantNeg 0 ≠ at_ upperCase.want (4 - 1 - 0) ∧
    at_ upperCase.wantUnitNeg 0 ≠ at_ upperCase.wantUnit (4 - 1 - 0) ∧
    upperCase.wantNeg ≠ upperCase.want.reverse ∧
    upperCase.wantUnitNeg ≠ upperCase.wantUnit.reverse := by
  decide

/-- Claim C4, amended. The expected result for a negative stride is, in
reverse storage order, the result of the definition for the vector read in
reverse order: `wantNeg` is the reverse of the definition applied to the
reversed `x`, and likewise `wantUnitNeg` for a unit diagonal. -/
theorem wantNeg_eq_reverse_of_reversed :
    upperCase.wantNeg = (specVector Uplo.Upper Transpose.NoTrans Diag.NonUnit 4 upperCase.a 4
      upperCase.x.reverse).reverse ∧
    upperCase.wantUnitNeg = (specVector Uplo.Upper Transpose.NoTrans Diag.Unit 4 upperCase.a 4
      upperCase.x.reverse).reverse := by
  decide

/-- Claim C5. For the transpose, every expected vector of the table equals the
definition `result_i = sum over j ≤ i of a_ji * x_j`: `wantTrans` and
`wantUnitTrans` for a positive stride, `wantTransNeg` and `wantUnitTransNeg`
for a negative stride (logical vector `x'[i] = x[n-1-i]`, result `i` stored at
position `n-1-i`). -/
theorem wantTrans_eq_definition :
    specVector Uplo.Upper Transpose.Trans Diag.NonUnit 4 upperCase.a 4 upperCase.x
      = upperCase.wantTrans ∧
    specVector Uplo.Upper Transpose.Trans Diag.Unit 4 upperCase.a 4 upperCase.x
      = upperCase.wantUnitTrans ∧
    negStrideVector Uplo.Upper Transpose.Trans Diag.NonUnit 4 upperCase.a 4 upperCase.x
      = upperCase.wantTransNeg ∧
    negStrideVector Uplo.Upper Transpose.Trans Diag.Unit 4 upperCase.a 4 upperCase.x
      = upperCase.wantUnitTransNeg := by
  decide

/-- Claim C6. For the conjugate transpose, every expected vector of the table
equals the definition `result_i = sum over j ≤ i of conj(a_ji) * x_j`:
`wantConjTrans` and `wantUnitConjTrans` for a positive stride,
`wantConjTransNeg` and `wantUnitConjTransNeg` for a negative stride (logical
vector `x'[i] = x[n-1-i]`, result `i` stored at position `n-1-i`). -/
theorem wantConjTrans_eq_definition :
    specVector Uplo.Upper Transpose.ConjTrans Diag.NonUnit 4 upperCase.a 4 upperCase.x
      = upperCase.wantConjTrans ∧
    specVector Uplo.Upper Transpose.ConjTrans Diag.Unit 4 upperCase.a 4 upperCase.x
      = upperCase.wantUnitConjTrans ∧
    negStrideVector Uplo.Upper Transpose.ConjTrans Diag.NonUnit 4 upperCase.a 4 upperCase.x
      = upperCase.wantConjTransNeg ∧
    negStrideVector Uplo.Upper Transpose.ConjTrans Diag.Unit 4 upperCase.a 4 upperCase.x
      = upperCase.wantUnitConjTransNeg := by
  decide

/-! ## The operand handed to the implementation -/

/-- Claim C7. In every call of the harness with a non-empty vector (upper
triangle, `n = 4`), the NaN slots of the `n` by `n` block of the operand are
exactly the slots the definition does not read: for a non-unit diagonal slot
`(i, j)` is NaN if and only if `i > j`, for a unit diagonal (after the
poisoning loop) if and only if `i ≥ j`. The first two parts state the same of
the literal operand of the table and of its poisoned copy. -/
theorem poisoned_slots_exact :
    (∀ i, i < 4 → ∀ j, j < 4 → ((at_ upperCase.a (i * 4 + j)).isNaN = true ↔ j < i)) ∧
    (∀ i, i < 4 → ∀ j, j < 4 →
      ((at_ (poisonDiag upperCase.a 4 4) (i * 4 + j)).isNaN = true ↔ j ≤ i)) ∧
    ∀ call ∈ harnessCalls, call.n ≠ 0 →
      call.uplo = Uplo.Upper ∧ call.n = 4 ∧
      ∀ i, i < call.n → ∀ j, j < call.n →
        (at_ call.a (i * call.lda + j)).isNaN = !readsSlot call.uplo call.diag i j ∧
        (call.diag = Diag.NonUnit →
          ((at_ call.a (i * call.lda + j)).isNaN = true ↔ j < i)) ∧
        (call.diag = Diag.Unit →
          ((at_ call.a (i * call.lda + j)).isNaN = true ↔ j ≤ i)) := by
  decide

/-- The call for a unit diagonal, stride 1 and `lda = 4`: the diagonal slot
`(1, 1)` of its operand is NaN. -/
theorem poisoned_slots_exact_witness :
    (at_ (callOf 2 upperCase Diag.Unit Transpose.NoTrans 1 4).a (1 * 4 + 1)).isNaN = true :=
  (((poisoned_slots_exact.2.2 (callOf 2 upperCase Diag.Unit Transpose.NoTrans 1 4)
    (by decide) (by decide)).2.2 1 (by decide) 1 (by decide)).2.2 rfl).mpr (by decide)

/-! ## The kernel -/

/-- The kernel reproduces the table for strides 1 and -1, for the three
transforms and both diagonal modes. -/
theorem Ztrmv_table :
    (Ztrmv Uplo.Upper Transpose.NoTrans Diag.NonUnit 4 upperCase.a 4 upperCase.x 1).x
      = upperCase.want ∧
    (Ztrmv Uplo.Upper Transpose.NoTrans Diag.NonUnit 4 upperCase.a 4 upperCase.x (-1)).x
      = upperCase.wantNeg ∧
    (Ztrmv Uplo.Upper Transpose.Trans Diag.NonUnit 4 upperCase.a 4 upperCase.x 1).x
      = upperCase.wantTrans ∧
    (Ztrmv Uplo.Upper Transpose.Trans Diag.NonUnit 4 upperCase.a 4 upperCase.x (-1)).x
      = upperCase.wantTransNeg ∧
    (Ztrmv Uplo.Upper Transpose.ConjTrans Diag.NonUnit 4 upperCase.a 4 upperCase.x 1).x
      = upperCase.wantConjTrans ∧
    (Ztrmv Uplo.Upper Transpose.ConjTrans Diag.NonUnit 4 upperCase.a 4 upperCase.x (-1)).x
      = upperCase.wantConjTransNeg ∧
    (Ztrmv Uplo.Upper Transpose.NoTrans Diag.Unit 4 (poisonDiag upperCase.a 4 4) 4
      upperCase.x 1).x = upperCase.wantUnit ∧
    (Ztrmv Uplo.Upper Transpose.NoTrans Diag.Unit 4 (poisonDiag upperCase.a 4 4) 4
      upperCase.x (-1)).x = upperCase.wantUnitNeg ∧
    (Ztrmv Uplo.Upper Transpose.Trans Diag.Unit 4 (poisonDiag upperCase.a 4 4) 4
      upperCase.x 1).x = upperCase.wantUnitTrans ∧
    (Ztrmv Uplo.Upper Transpose.Trans Diag.Unit 4 (poisonDiag upperCase.a 4 4) 4
      upperCase.x (-1)).x = upperCase.wantUnitTransNeg ∧
    (Ztrmv Uplo.Upper Transpose.ConjTrans Diag.Unit 4 (poisonDiag upperCase.a 4 4) 4
      upperCase.x 1).x = upperCase.wantUnitConjTrans ∧
    (Ztrmv Uplo.Upper Transpose.ConjTrans Diag.Unit 4 (poisonDiag upperCase.a 4 4) 4
      upperCase.x (-1)).x = upperCase.wantUnitConjTransNeg := by
  decide

/-- Claim C8. For every `n`, triangle, transform, diagonal mode, leading
dimension and stride, a call of the kernel leaves the matrix buffer equal to
its value before the call; and so does the in-place update for any order of
the rows whatever. -/
theorem Ztrmv_leaves_a {R : Type} [Zero R] [One R] [Add R] [Mul R] [Star R] [Inhabited R]
    (uplo : Uplo) (trans : Transpose) (diag : Diag) (n : Nat) (a : List R) (lda : Nat)
    (x : List R) (incX : Int) :
    (Ztrmv uplo trans diag n a lda x incX).a = a ∧
    ∀ order : List Nat,
      (inPlace uplo trans diag n lda incX order { a := a, x := x }).a = a :=
  ⟨inPlace_a uplo trans diag n lda incX (rowOrder uplo trans n) { a := a, x := x },
   fun order => inPlace_a uplo trans diag n lda incX order { a := a, x := x }⟩

/-- Claim C9, as stated, fails: on the table, overwriting the rows of the
upper triangle from last to first does not give the definition (nor `want`),
since row `i` then reads elements `j > i` that are already overwritten; and
for a lower triangle, first to last fails in the same way on a 2 by 2
operand. -/
theorem stated_order_fails :
    (inPlace Uplo.Upper Transpose.NoTrans Diag.NonUnit 4 4 1 (lastToFirst 4)
        { a := upperCase.a, x := upperCase.x }).x
      ≠ specVector Uplo.Upper Transpose.NoTrans Diag.NonUnit 4 upperCase.a 4 upperCase.x ∧
    (inPlace Uplo.Upper Transpose.NoTrans Diag.NonUnit 4 4 1 (lastToFirst 4)
        { a := upperCase.a, x := upperCase.x }).x ≠ upperCase.want ∧
    (inPlace Uplo.Lower Transpose.NoTrans Diag.NonUnit 2 2 1 (firstToLast 2)
        { a := [c 2 0, nan, c 1 0, c 1 0], x := [c 1 0, c 1 0] }).x
      ≠ specVector Uplo.Lower Transpose.NoTrans Diag.NonUnit 2
          [c 2 0, nan, c 1 0, c 1 0] 2 [c 1 0, c 1 0] := by
  decide

/-- Claim C9, amended. With the two directions exchanged the in-place strategy
computes the definition: for every `n`, operand and vector of length `n`, over
any scalars, overwriting `x_i` with the sum over `j ≥ i` of `a_ij * x_j` for
the rows of an upper triangle from first to last leaves the definition applied
to the entry value of the vector, and overwriting `x_i` with the sum over
`j ≤ i` for the rows of a lower triangle from last to first does so too. -/
theorem exchanged_order_eq_definition {R : Type} [Zero R] [One R] [Add R] [Mul R] [Star R]
    [Inhabited R] (n : Nat) (a : List R) (lda : Nat) (x : List R) (hx : x.length = n) :
    (inPlace Uplo.Upper Transpose.NoTrans Diag.NonUnit n lda 1 (firstToLast n)
        { a := a, x := x }).x
      = specVector Uplo.Upper Transpose.NoTrans Diag.NonUnit n a lda x ∧
    (inPlace Uplo.Lower Transpose.NoTrans Diag.NonUnit n lda 1 (lastToFirst n)
        { a := a, x := x }).x
      = specVector Uplo.Lower Transpose.NoTrans Diag.NonUnit n a lda x := by
  constructor
  · exact inPlace_eq_specVector _ _ _ n a lda x (firstToLast n) hx (List.nodup_range n)
      (fun i => List.mem_range)
      (firstToLast_safe _ _ n (fun i m him => by simp [inRow, inTriangle]; omega))
  · exact inPlace_eq_specVector _ _ _ n a lda x (lastToFirst n) hx
      (List.nodup_reverse.mpr (List.nodup_range n))
      (fun i => by simp [lastToFirst])
      (lastToFirst_safe _ _ n (fun i m him => by simp [inRow, inTriangle]; omega))

/-- The table as the concrete instance for the upper triangle: first to last,
the in-place strategy turns the literal `x` into the literal `want`. -/
theorem exchanged_order_eq_definition_witness :
    upperCase.x.length = 4 ∧
    (inPlace Uplo.Upper Transpose.NoTrans Diag.NonUnit 4 4 1 (firstToLast 4)
        { a := upperCase.a, x := upperCase.x }).x = upperCase.want :=
  ⟨rfl, (exchanged_order_eq_definition 4 upperCase.a 4 upperCase.x rfl).1.trans (by decide)⟩

/-! ## The calls the harness makes -/

/-- Claim C10. Every call of the harness has `trans = NoTrans`; every call for
the lower triangle has `n = 0`; the variants called with a non-empty vector
are exactly (Upper, NoTrans, Unit) and (Upper, NoTrans, NonUnit); and none of
the eight result fields of the two transposes is ever selected as the expected
result. -/
theorem harness_calls_only_upper_notrans :
    (∀ call ∈ harnessCalls, call.trans = Transpose.NoTrans) ∧
    (∀ call ∈ harnessCalls, call.uplo = Uplo.Lower → call.n = 0) ∧
    (∀ (uplo : Uplo) (trans : Transpose) (diag : Diag),
      (∃ call ∈ harnessCalls, call.n ≠ 0 ∧ call.uplo = uplo ∧ call.trans = trans ∧
        call.diag = diag) ↔ (uplo = Uplo.Upper ∧ trans = Transpose.NoTrans)) ∧
    (∀ call ∈ harnessCalls, ∀ f ∈ transFields, call.wantField ≠ some f) := by
  refine ⟨by decide, by decide, ?_, by decide⟩
  intro uplo trans diag
  cases uplo <;> cases trans <;> cases diag <;> decide

/-- A call the harness makes: the one for the non-empty entry, a unit
diagonal, stride 1 and `lda = 4`. -/
theorem harness_calls_only_upper_notrans_witness :
    callOf 2 upperCase Diag.Unit Transpose.NoTrans 1 4 ∈ harnessCalls ∧
    (callOf 2 upperCase Diag.Unit Transpose.NoTrans 1 4).wantField
      ≠ some WantField.wantUnitTrans :=
  ⟨by decide, harness_calls_only_upper_notrans.2.2.2 _ (by decide) _ (by decide)⟩

end Testblas
